import Mathlib

/-!
Verification development for an Apriori-style association-rule miner.

The source program works over transactions that are sets of string items.
Frequent-itemset mining is a level-wise loop: generate candidates from the
previous level's frequent itemsets, count support, filter by a minimum-support
threshold, and accumulate.  Maximal frequent itemsets are extracted by a
greedy pass in decreasing size order, and one-item-consequent association
rules are generated from them with domain-specific filters.

Items are modelled as `String`, itemsets as `Finset String`, transactions as a
`List` of itemsets (the input file is a list of lines, possibly with repeats),
and the real-valued thresholds as `ℚ` (the source's floating-point values,
modelled exactly).  Python dictionaries keyed by itemsets are modelled by
`CountDict`: the set of keys together with the lookup function; a lookup of an
absent key yields 0, mirroring `defaultdict(int)` / `dict.get(key, 0)`.
-/

namespace AssocRules

abbrev Item := String

abbrev Itemset := Finset String

/-- A Python dict mapping itemsets to integer counts: its key set plus its
lookup function (0 on absent keys, as with `defaultdict(int)` or
`get(key, 0)`). -/
structure CountDict where
  keys : Finset Itemset
  count : Itemset → Nat

/-- The empty dict `defaultdict(int)`. -/
def CountDict.empty : CountDict := ⟨∅, fun _ => 0⟩

/-- `d.update e`: Python `d.update(e)` — keys are merged and the entries of
`e` override those of `d`. -/
def CountDict.update (d e : CountDict) : CountDict :=
  { keys := d.keys ∪ e.keys,
    count := fun c => if c ∈ e.keys then e.count c else d.count c }

/-- Source `get_itemsets(transactions, k)`: every k-element subset of every
transaction (`combinations(sorted(transaction), k)` enumerates exactly the
k-element subsets; they are accumulated into one set). -/
def get_itemsets (transactions : List Itemset) (k : Nat) : Finset Itemset :=
  transactions.foldl (fun itemsets t => itemsets ∪ Finset.powersetCard k t) ∅

/-- One outer-loop step of `count_support`: processing a single transaction
bumps the count of every candidate contained in it and inserts those
candidates as keys.  The source's inner loop iterates over the candidate set;
its increments commute, so the step is recorded extensionally. -/
def count_one (itemsets : Finset Itemset) (d : CountDict) (t : Itemset) : CountDict :=
  { keys := d.keys ∪ itemsets.filter (fun c => c ⊆ t),
    count := fun c => if c ∈ itemsets ∧ c ⊆ t then d.count c + 1 else d.count c }

/-- Source `count_support(transactions, itemsets)`: starting from an empty
`defaultdict(int)`, fold over the transactions, bumping each contained
candidate. -/
def count_support (transactions : List Itemset) (itemsets : Finset Itemset) : CountDict :=
  transactions.foldl (count_one itemsets) CountDict.empty

/-- Source `filter_frequent_itemsets(support_counts, min_sup, total_transactions)`:
keep the entries whose count is at least `min_sup * total_transactions`
(raw non-strict comparison, no rounding). -/
def filter_frequent_itemsets (d : CountDict) (min_sup : ℚ) (total_transactions : Nat) :
    CountDict :=
  { keys := d.keys.filter (fun c => min_sup * total_transactions ≤ (d.count c : ℚ)),
    count := d.count }

/-- Source `generate_candidates(frequent_itemsets, k)`: union every pair of
distinct keys (the source's index pairs `i < j` over the key list), keep the
unions of size exactly `k`, then prune any candidate having a (k−1)-subset
that is not a key. -/
def generate_candidates (frequent_itemsets : CountDict) (k : Nat) : Finset Itemset :=
  let candidates :=
    (frequent_itemsets.keys.offDiag.filter (fun p => (p.1 ∪ p.2).card = k)).image
      (fun p => p.1 ∪ p.2)
  candidates.filter (fun c => ∀ s ∈ Finset.powersetCard (k - 1) c, s ∈ frequent_itemsets.keys)

/-- The body of source `find_maximal_frequent_itemsets`'s loop: an itemset is
accepted iff it is not contained in an already-accepted one. -/
def maximal_step (maximal : Finset Itemset) (itemset : Itemset) : Finset Itemset :=
  if ∃ other ∈ maximal, itemset ⊆ other then maximal else insert itemset maximal

/-- Source `find_maximal_frequent_itemsets(frequent_itemsets)`: fold
`maximal_step` over the key list (the source sorts it by size, largest
first — the caller passes such a list). -/
def find_maximal_frequent_itemsets (sorted_itemsets : List Itemset) : Finset Itemset :=
  sorted_itemsets.foldl maximal_step ∅

/-- All distinct items occurring in any transaction (the vocabulary); it
bounds the size of every itemset the miner can form. -/
def vocab (transactions : List Itemset) : Itemset :=
  transactions.foldl (fun v t => v ∪ t) ∅

/-- The `while frequent_itemsets:` loop of source `apriori`, with an explicit
fuel argument standing for the number of remaining permitted iterations
(`apriori` supplies enough fuel for the loop to run to completion, see
`aprioriLoop_fuel_stable`).  State: current level `k`, the previous level's
frequent itemsets, and the accumulated `all_frequent_itemsets` and
`all_support_counts`. -/
def aprioriLoop (transactions : List Itemset) (min_sup : ℚ) :
    Nat → Nat → CountDict → CountDict → CountDict → CountDict × CountDict
  | 0, _, _, allFreq, allCounts => (allFreq, allCounts)
  | fuel + 1, k, frequent_itemsets, allFreq, allCounts =>
    if frequent_itemsets.keys = ∅ then (allFreq, allCounts)
    else
      let candidates := generate_candidates frequent_itemsets k
      if candidates = ∅ then (allFreq, allCounts)
      else
        let support_counts := count_support transactions candidates
        let next_frequent :=
          filter_frequent_itemsets support_counts min_sup transactions.length
        aprioriLoop transactions min_sup fuel (k + 1) next_frequent
          (allFreq.update next_frequent) (allCounts.update support_counts)

/-- Step 1 of source `apriori`: the support counts of the level-1 candidates,
`count_support(transactions, get_itemsets(transactions, 1))`. -/
def initial_support_counts (transactions : List Itemset) : CountDict :=
  count_support transactions (get_itemsets transactions 1)

/-- Step 1 of source `apriori`, continued: the frequent 1-itemsets,
`filter_frequent_itemsets(support_counts, min_sup, total_transactions)`. -/
def initial_frequent (transactions : List Itemset) (min_sup : ℚ) : CountDict :=
  filter_frequent_itemsets (initial_support_counts transactions) min_sup transactions.length

/-- Source `apriori(transactions, min_sup)`: compute the frequent 1-itemsets
(`initial_frequent`), then run the level-wise loop from `k = 2` with the
accumulators initialised to the level-1 results.  Returns the accumulated
frequent itemsets, the accumulated support counts, and the total transaction
count.  (The source also computes `find_maximal_frequent_itemsets` on the
accumulated keys sorted by decreasing size; that step is modelled by applying
`find_maximal_frequent_itemsets` to such a sorted enumeration of the keys,
see `main_model`.)  The fuel `(vocab transactions).card + 1` is enough for
the loop to reach its exit condition, so the fuel does not cut the loop
short (`apriori_loop_terminates`). -/
def apriori (transactions : List Itemset) (min_sup : ℚ) :
    CountDict × CountDict × Nat :=
  let res := aprioriLoop transactions min_sup ((vocab transactions).card + 1) 2
    (initial_frequent transactions min_sup) (initial_frequent transactions min_sup)
    (initial_support_counts transactions)
  (res.1, res.2, transactions.length)

/-- The number of entries of the transaction list that are supersets of `c`
(the support count the source's counting loop accrues for a candidate). -/
def supportCount (transactions : List Itemset) (c : Itemset) : Nat :=
  transactions.countP (fun t => decide (c ⊆ t))

/-- A collection of itemsets is downward closed when it contains every
non-empty subset of each of its members. -/
def DownwardClosed (K : Finset Itemset) : Prop :=
  ∀ F ∈ K, ∀ S, S ⊆ F → S.Nonempty → S ∈ K

/-- Boolean test that `pat` is a contiguous leading segment of `s`
(Python `s.startswith(pat)`, on character lists). -/
def strStarts : List Char → List Char → Bool
  | [], _ => true
  | _ :: _, [] => false
  | p :: ps, c :: cs => p == c && strStarts ps cs

/-- Boolean test that `pat` occurs contiguously inside `s`
(Python `pat in s`, on character lists). -/
def strContains (pat : List Char) : List Char → Bool
  | [] => pat.isEmpty
  | c :: rest => strStarts pat (c :: rest) || strContains pat rest

/-- The source's `fine_levels` set. -/
def fine_levels : Finset String := {"Low Fine", "Medium Fine", "High Fine"}

/-- An association rule as the source appends it:
`(lhs, rhs, rule_support, confidence)`. -/
structure Rule where
  lhs : Itemset
  rhs : Itemset
  support : ℚ
  confidence : ℚ
deriving DecidableEq

/-- The body of source `generate_rules`'s inner loop for one choice of
`rhs_item` from `itemset`: apply the RHS-kind skip (`"_" in rhs_item and
"Violation_" in rhs_item`), the empty-LHS skip, the triviality skip
(fine-level RHS whose LHS holds an item starting `f"{rhs_item}_Violation_"`),
the zero-LHS-support skip, and the confidence threshold; on success produce
the appended rule tuple. -/
def mkRule (support_counts : Itemset → Nat) (min_conf : ℚ) (total_transactions : Nat)
    (itemset : Itemset) (rhs_item : Item) : Option Rule :=
  if strContains "_".data rhs_item.data && strContains "Violation_".data rhs_item.data then
    none
  else
    let rhs : Itemset := {rhs_item}
    let lhs : Itemset := itemset \ rhs
    if lhs = ∅ then none
    else if rhs_item ∈ fine_levels ∧
        ∃ lhs_item ∈ lhs, strStarts (rhs_item ++ "_Violation_").data lhs_item.data then none
    else
      let support := support_counts itemset
      let lhs_support := support_counts lhs
      if lhs_support = 0 then none
      else
        let confidence : ℚ := (support : ℚ) / (lhs_support : ℚ)
        if min_conf ≤ confidence then
          some { lhs := lhs, rhs := rhs,
                 support := (support : ℚ) / (total_transactions : ℚ),
                 confidence := confidence }
        else none

/-- Source `generate_rules(maximal_frequent, support_counts, min_conf,
total_transactions)`: for each maximal itemset of size ≥ 2 and each of its
items as RHS, collect the rule produced by `mkRule` (if any).  The source
accumulates a list; the collection is modelled as the set of emitted rules. -/
def generate_rules (maximal_frequent : Finset Itemset) (support_counts : Itemset → Nat)
    (min_conf : ℚ) (total_transactions : Nat) : Finset Rule :=
  maximal_frequent.biUnion (fun itemset =>
    if itemset.card < 2 then ∅
    else itemset.biUnion (fun rhs_item =>
      (mkRule support_counts min_conf total_transactions itemset rhs_item).elim ∅
        (fun r => {r})))

/-- Source `main`'s threshold validation: `float(...)` conversions (a
non-numeric argument is modelled as `none`) followed by the range check
`0 <= min_sup <= 1 and 0 <= min_conf <= 1`; any failure prints the diagnostic
and exits with status 1. -/
def validate_config (min_sup min_conf : Option ℚ) : Except String (ℚ × ℚ) :=
  match min_sup, min_conf with
  | some s, some c =>
      if 0 ≤ s ∧ s ≤ 1 ∧ 0 ≤ c ∧ c ≤ 1 then Except.ok (s, c)
      else Except.error "min_sup and min_conf must be numbers between 0 and 1"
  | _, _ => Except.error "min_sup and min_conf must be numbers between 0 and 1"

/-- Source `main` after ingestion: validate the thresholds; on failure exit
with the diagnostic before any mining work (no report is produced); on
success run `apriori`, extract the maximal itemsets, run `generate_rules`,
and return the material of the report.  `sortedKeys` stands for the
enumeration `sorted(all_frequent_itemsets.keys(), key=len, reverse=True)`
that the source feeds to the maximal-extraction pass: the source sorts by
decreasing size but leaves the order of equal-sized keys to dict iteration
order, so the enumeration is a parameter here. -/
def main_model (transactions : List Itemset) (min_sup min_conf : Option ℚ)
    (sortedKeys : List Itemset) :
    Except String ((CountDict × CountDict × Nat) × Finset Rule) :=
  match validate_config min_sup min_conf with
  | Except.error msg => Except.error msg
  | Except.ok (s, c) =>
      let res := apriori transactions s
      let maximal := find_maximal_frequent_itemsets sortedKeys
      Except.ok (res, generate_rules maximal res.2.1.count c res.2.2)

/-! ### Support counting -/

theorem count_support_go (itemsets : Finset Itemset) (transactions : List Itemset) :
    ∀ d : CountDict,
      ((transactions.foldl (count_one itemsets) d).keys
          = d.keys ∪ itemsets.filter (fun c => ∃ t ∈ transactions, c ⊆ t)) ∧
      (∀ c, (transactions.foldl (count_one itemsets) d).count c
          = d.count c + if c ∈ itemsets then supportCount transactions c else 0) := by
  induction transactions with
  | nil =>
    intro d
    refine ⟨?_, ?_⟩
    · simp
    · intro c
      simp [supportCount]
  | cons t ts ih =>
    intro d
    obtain ⟨ihk, ihc⟩ := ih (count_one itemsets d t)
    refine ⟨?_, ?_⟩
    · rw [List.foldl_cons, ihk]
      ext c
      simp only [count_one, Finset.mem_union, Finset.mem_filter, List.mem_cons]
      constructor
      · rintro (⟨h | ⟨hc, hsub⟩⟩ | ⟨hc, u, hu, hsub⟩)
        · exact Or.inl h
        · exact Or.inr ⟨hc, t, Or.inl rfl, hsub⟩
        · exact Or.inr ⟨hc, u, Or.inr hu, hsub⟩
      · rintro (h | ⟨hc, u, (rfl | hu), hsub⟩)
        · exact Or.inl (Or.inl h)
        · exact Or.inl (Or.inr ⟨hc, hsub⟩)
        · exact Or.inr ⟨hc, u, hu, hsub⟩
    · intro c
      rw [List.foldl_cons, ihc c]
      simp only [count_one, supportCount, List.countP_cons]
      by_cases hc : c ∈ itemsets <;> by_cases hsub : c ⊆ t
      all_goals simp only [hc, hsub, supportCount, if_true, if_false, and_self, and_false,
        if_pos, decide_eq_true_eq, ite_true, ite_false, true_and, false_and]
      all_goals omega

theorem mem_count_support_keys (transactions : List Itemset) (itemsets : Finset Itemset)
    (c : Itemset) :
    c ∈ (count_support transactions itemsets).keys ↔
      c ∈ itemsets ∧ ∃ t ∈ transactions, c ⊆ t := by
  have h := (count_support_go itemsets transactions CountDict.empty).1
  rw [count_support, h]
  simp [CountDict.empty, Finset.mem_filter, and_comm]

theorem count_support_count_eq (transactions : List Itemset) (itemsets : Finset Itemset)
    (c : Itemset) :
    (count_support transactions itemsets).count c
      = if c ∈ itemsets then supportCount transactions c else 0 := by
  have h := (count_support_go itemsets transactions CountDict.empty).2 c
  rw [count_support, h]
  simp [CountDict.empty]

theorem count_support_keys_subset (transactions : List Itemset) (itemsets : Finset Itemset) :
    (count_support transactions itemsets).keys ⊆ itemsets := by
  intro c hc
  exact ((mem_count_support_keys transactions itemsets c).mp hc).1

theorem supportCount_anti (transactions : List Itemset) {a b : Itemset} (h : a ⊆ b) :
    supportCount transactions b ≤ supportCount transactions a := by
  unfold supportCount
  apply List.countP_mono_left
  intro t _ hbt
  simpa using (h.trans (by simpa using hbt))

/-! ### Threshold filtering -/

theorem mem_filter_frequent (d : CountDict) (min_sup : ℚ) (total : Nat) (c : Itemset) :
    c ∈ (filter_frequent_itemsets d min_sup total).keys ↔
      c ∈ d.keys ∧ min_sup * total ≤ (d.count c : ℚ) := by
  simp [filter_frequent_itemsets]

theorem filter_frequent_keys_subset (d : CountDict) (min_sup : ℚ) (total : Nat) :
    (filter_frequent_itemsets d min_sup total).keys ⊆ d.keys :=
  Finset.filter_subset _ _

/-! ### Candidate generation -/

theorem mem_generate_candidates (frequent : CountDict) (k : Nat) (c : Itemset) :
    c ∈ generate_candidates frequent k ↔
      ((∃ a ∈ frequent.keys, ∃ b ∈ frequent.keys, a ≠ b ∧ a ∪ b = c) ∧ c.card = k) ∧
      ∀ s ⊆ c, s.card = k - 1 → s ∈ frequent.keys := by
  simp only [generate_candidates, Finset.mem_filter, Finset.mem_image, Finset.mem_offDiag,
    Finset.mem_powersetCard]
  constructor
  · rintro ⟨⟨⟨a, b⟩, h, rfl⟩, hsubs⟩
    simp only [Finset.mem_filter, Finset.mem_offDiag] at h
    exact ⟨⟨⟨a, h.1.1, b, h.1.2.1, h.1.2.2, rfl⟩, h.2⟩,
      fun s hs hcard => hsubs s ⟨hs, hcard⟩⟩
  · rintro ⟨⟨⟨a, ha, b, hb, hab, rfl⟩, hcard⟩, hsubs⟩
    exact ⟨⟨⟨a, b⟩, by simp [Finset.mem_filter, Finset.mem_offDiag, ha, hb, hab, hcard]⟩,
      fun s hs => hsubs s hs.1 hs.2⟩

/-! ### Vocabulary and level-1 candidates -/

theorem foldl_union_acc_subset (transactions : List Itemset) :
    ∀ acc : Itemset, acc ⊆ transactions.foldl (fun v t => v ∪ t) acc := by
  induction transactions with
  | nil => intro acc; simp
  | cons t ts ih =>
    intro acc
    rw [List.foldl_cons]
    exact Finset.subset_union_left.trans (ih (acc ∪ t))

theorem subset_vocab_of_mem (transactions : List Itemset) :
    ∀ t ∈ transactions, t ⊆ vocab transactions := by
  have general : ∀ (l : List Itemset) (acc : Itemset), ∀ t ∈ l,
      t ⊆ l.foldl (fun v u => v ∪ u) acc := by
    intro l
    induction l with
    | nil => intro acc t ht; cases ht
    | cons u us ih =>
      intro acc t ht
      rw [List.foldl_cons]
      rcases List.mem_cons.mp ht with rfl | ht'
      · exact Finset.subset_union_right.trans (foldl_union_acc_subset us (acc ∪ t))
      · exact ih (acc ∪ u) t ht'
  exact general transactions ∅

theorem mem_get_itemsets (k : Nat) (transactions : List Itemset) (s : Itemset) :
    s ∈ get_itemsets transactions k ↔ ∃ t ∈ transactions, s ⊆ t ∧ s.card = k := by
  have general : ∀ (l : List Itemset) (acc : Finset Itemset),
      s ∈ l.foldl (fun A t => A ∪ Finset.powersetCard k t) acc ↔
        s ∈ acc ∨ ∃ t ∈ l, s ⊆ t ∧ s.card = k := by
    intro l
    induction l with
    | nil => simp
    | cons t ts ih =>
      intro acc
      rw [List.foldl_cons, ih, Finset.mem_union, Finset.mem_powersetCard]
      simp only [List.mem_cons]
      constructor
      · rintro ((h | h) | ⟨u, hu, hs⟩)
        · exact Or.inl h
        · exact Or.inr ⟨t, Or.inl rfl, h⟩
        · exact Or.inr ⟨u, Or.inr hu, hs⟩
      · rintro (h | ⟨u, rfl | hu, hs⟩)
        · exact Or.inl (Or.inl h)
        · exact Or.inl (Or.inr hs)
        · exact Or.inr ⟨u, hu, hs⟩
  rw [get_itemsets, general transactions ∅]
  simp

theorem get_itemsets_card_subset_vocab (transactions : List Itemset) (s : Itemset)
    (h : s ∈ get_itemsets transactions 1) : s.card = 1 ∧ s ⊆ vocab transactions := by
  obtain ⟨t, ht, hsub, hcard⟩ := (mem_get_itemsets 1 transactions s).mp h
  exact ⟨hcard, hsub.trans (subset_vocab_of_mem transactions t ht)⟩

/-! ### The level-wise loop -/

theorem aprioriLoop_succ (transactions : List Itemset) (min_sup : ℚ) (fuel k : Nat)
    (frequent allFreq allCounts : CountDict) :
    aprioriLoop transactions min_sup (fuel + 1) k frequent allFreq allCounts =
      if frequent.keys = ∅ then (allFreq, allCounts)
      else if generate_candidates frequent k = ∅ then (allFreq, allCounts)
      else
        aprioriLoop transactions min_sup fuel (k + 1)
          (filter_frequent_itemsets
            (count_support transactions (generate_candidates frequent k)) min_sup
            transactions.length)
          (allFreq.update
            (filter_frequent_itemsets
              (count_support transactions (generate_candidates frequent k)) min_sup
              transactions.length))
          (allCounts.update (count_support transactions (generate_candidates frequent k))) :=
  rfl

theorem update_keys (d e : CountDict) : (d.update e).keys = d.keys ∪ e.keys := rfl

theorem next_frequent_keys_subset (transactions : List Itemset) (min_sup : ℚ)
    (frequent : CountDict) (k : Nat) :
    (filter_frequent_itemsets (count_support transactions (generate_candidates frequent k))
        min_sup transactions.length).keys ⊆ generate_candidates frequent k :=
  (filter_frequent_keys_subset _ _ _).trans (count_support_keys_subset _ _)

theorem aprioriLoop_downward_closed (transactions : List Itemset) (min_sup : ℚ) :
    ∀ fuel k (frequent allFreq allCounts : CountDict),
      2 ≤ k →
      (∀ s ∈ frequent.keys, s.card + 1 = k) →
      frequent.keys ⊆ allFreq.keys →
      DownwardClosed allFreq.keys →
      DownwardClosed
        (aprioriLoop transactions min_sup fuel k frequent allFreq allCounts).1.keys := by
  intro fuel
  induction fuel with
  | zero => intro k frequent allFreq allCounts _ _ _ hdc; exact hdc
  | succ fuel ih =>
    intro k frequent allFreq allCounts hk hcard hsub hdc
    rw [aprioriLoop_succ]
    by_cases h1 : frequent.keys = ∅
    · rw [if_pos h1]; exact hdc
    rw [if_neg h1]
    by_cases h2 : generate_candidates frequent k = ∅
    · rw [if_pos h2]; exact hdc
    rw [if_neg h2]
    set nf := filter_frequent_itemsets
      (count_support transactions (generate_candidates frequent k)) min_sup
      transactions.length with hnf
    have hnfsub : nf.keys ⊆ generate_candidates frequent k :=
      next_frequent_keys_subset transactions min_sup frequent k
    have hcand : ∀ c ∈ generate_candidates frequent k,
        c.card = k ∧ ∀ s ⊆ c, s.card = k - 1 → s ∈ frequent.keys := by
      intro c hc
      have := (mem_generate_candidates frequent k c).mp hc
      exact ⟨this.1.2, this.2⟩
    apply ih (k + 1) nf (allFreq.update nf) _ (by omega)
    · intro s hs
      have := (hcand s (hnfsub hs)).1
      omega
    · rw [update_keys]
      exact Finset.subset_union_right
    · rw [update_keys]
      intro F hF S hS hSne
      rcases Finset.mem_union.mp hF with hF | hF
      · exact Finset.mem_union_left _ (hdc F hF S hS hSne)
      · obtain ⟨hcF, hsubsF⟩ := hcand F (hnfsub hF)
        rcases eq_or_ne S F with rfl | hne
        · exact Finset.mem_union_right _ hF
        · have hSF : S ⊂ F := HasSubset.Subset.ssubset_of_ne hS hne
          have hlt : S.card < k := hcF ▸ Finset.card_lt_card hSF
          have hScard : S.card ≤ k - 1 := by omega
          obtain ⟨T, hST, hTF, hTcard⟩ :=
            Finset.exists_subsuperset_card_eq hS hScard (by omega : k - 1 ≤ F.card)
          have hT : T ∈ frequent.keys := hsubsF T hTF hTcard
          exact Finset.mem_union_left _ (hdc T (hsub hT) S hST hSne)

theorem aprioriLoop_fuel_stable (transactions : List Itemset) (min_sup : ℚ) :
    ∀ fuel m k (frequent allFreq allCounts : CountDict),
      (∀ s ∈ frequent.keys, s.card + 1 = k ∧ s ⊆ vocab transactions) →
      (vocab transactions).card + 2 ≤ k + fuel →
      aprioriLoop transactions min_sup (fuel + m) k frequent allFreq allCounts
        = aprioriLoop transactions min_sup fuel k frequent allFreq allCounts := by
  intro fuel
  induction fuel with
  | zero =>
    intro m k frequent allFreq allCounts hinv hbound
    cases m with
    | zero => rfl
    | succ m' =>
      rw [Nat.zero_add, aprioriLoop_succ]
      by_cases h1 : frequent.keys = ∅
      · rw [if_pos h1]; rfl
      rw [if_neg h1]
      have hcand : generate_candidates frequent k = ∅ := by
        by_contra hne
        obtain ⟨c, hc⟩ := Finset.nonempty_iff_ne_empty.mpr hne
        obtain ⟨⟨⟨a, ha, b, hb, _, hab⟩, hcard⟩, _⟩ :=
          (mem_generate_candidates frequent k c).mp hc
        have hcv : c ⊆ vocab transactions :=
          hab ▸ Finset.union_subset (hinv a ha).2 (hinv b hb).2
        have hle := Finset.card_le_card hcv
        omega
      rw [if_pos hcand]; rfl
  | succ fuel ih =>
    intro m k frequent allFreq allCounts hinv hbound
    have hshift : fuel + 1 + m = fuel + m + 1 := by omega
    rw [hshift, aprioriLoop_succ, aprioriLoop_succ]
    by_cases h1 : frequent.keys = ∅
    · rw [if_pos h1, if_pos h1]
    rw [if_neg h1, if_neg h1]
    by_cases h2 : generate_candidates frequent k = ∅
    · rw [if_pos h2, if_pos h2]
    rw [if_neg h2, if_neg h2]
    apply ih
    · intro s hs
      have hmem : s ∈ generate_candidates frequent k :=
        next_frequent_keys_subset transactions min_sup frequent k hs
      obtain ⟨⟨⟨a, ha, b, hb, _, hab⟩, hcard⟩, _⟩ :=
        (mem_generate_candidates frequent k s).mp hmem
      refine ⟨by omega, ?_⟩
      exact hab ▸ Finset.union_subset (hinv a ha).2 (hinv b hb).2
    · omega

theorem initial_frequent_inv (transactions : List Itemset) (min_sup : ℚ) :
    ∀ s ∈ (initial_frequent transactions min_sup).keys,
      s.card = 1 ∧ s ⊆ vocab transactions := by
  intro s hs
  have h1 : s ∈ (initial_support_counts transactions).keys :=
    filter_frequent_keys_subset _ _ _ hs
  have h2 : s ∈ get_itemsets transactions 1 :=
    count_support_keys_subset _ _ h1
  exact get_itemsets_card_subset_vocab transactions s h2

/-! ### Maximal-itemset extraction -/

theorem maximal_step_subset (M : Finset Itemset) (s : Itemset) : M ⊆ maximal_step M s := by
  unfold maximal_step
  split
  · exact Finset.Subset.refl M
  · exact Finset.subset_insert s M

theorem foldl_maximal_mono (l : List Itemset) :
    ∀ M : Finset Itemset, M ⊆ l.foldl maximal_step M := by
  induction l with
  | nil => intro M; simp
  | cons t ts ih =>
    intro M
    rw [List.foldl_cons]
    exact (maximal_step_subset M t).trans (ih (maximal_step M t))

theorem foldl_maximal_sound (l : List Itemset)
    (hsorted : l.Pairwise (fun a b => b.card ≤ a.card)) :
    ∀ M : Finset Itemset,
      (∀ b ∈ M, ∀ s ∈ l, s.card ≤ b.card) →
      (∀ a ∈ M, ∀ b ∈ M, ¬ a ⊂ b) →
      ∀ a ∈ l.foldl maximal_step M, ∀ b ∈ l.foldl maximal_step M, ¬ a ⊂ b := by
  induction l with
  | nil => intro M _ inv1; exact inv1
  | cons t ts ih =>
    rw [List.pairwise_cons] at hsorted
    obtain ⟨hthead, htail⟩ := hsorted
    intro M inv2 inv1
    rw [List.foldl_cons]
    unfold maximal_step
    split
    · exact ih htail M (fun b hb s hs => inv2 b hb s (List.mem_cons_of_mem t hs)) inv1
    · rename_i habs
      push_neg at habs
      apply ih htail (insert t M)
      · intro b hb s hs
        rcases Finset.mem_insert.mp hb with rfl | hb'
        · exact hthead s hs
        · exact inv2 b hb' s (List.mem_cons_of_mem t hs)
      · intro a ha b hb hab
        rcases Finset.mem_insert.mp ha with rfl | ha' <;>
          rcases Finset.mem_insert.mp hb with h | hb'
        · exact (ssubset_irrefl a) (h ▸ hab)
        · exact habs b hb' hab.subset
        · subst h
          have h1 : a.card < b.card := Finset.card_lt_card hab
          have h2 : b.card ≤ a.card := inv2 a ha' b (List.mem_cons_self b ts)
          omega
        · exact inv1 a ha' b hb' hab

theorem foldl_maximal_complete (l : List Itemset) :
    ∀ M : Finset Itemset, ∀ s ∈ l, ∃ m ∈ l.foldl maximal_step M, s ⊆ m := by
  induction l with
  | nil => intro M s hs; cases hs
  | cons t ts ih =>
    intro M s hs
    rw [List.foldl_cons]
    rcases List.mem_cons.mp hs with rfl | hs'
    · by_cases h : ∃ other ∈ M, s ⊆ other
      · obtain ⟨o, ho, hso⟩ := h
        have hstep : maximal_step M s = M := by unfold maximal_step; rw [if_pos ⟨o, ho, hso⟩]
        refine ⟨o, ?_, hso⟩
        rw [hstep]
        exact foldl_maximal_mono ts M ho
      · have hstep : maximal_step M s = insert s M := by unfold maximal_step; rw [if_neg h]
        refine ⟨s, ?_, Finset.Subset.refl s⟩
        rw [hstep]
        exact foldl_maximal_mono ts (insert s M) (Finset.mem_insert_self s M)
    · exact ih (maximal_step M t) s hs'

/-! ### Rule generation -/

theorem mem_option_elim_singleton (o : Option Rule) (r : Rule) :
    r ∈ o.elim (∅ : Finset Rule) (fun x => {x}) ↔ o = some r := by
  cases o with
  | none => simp [Option.elim]
  | some x =>
    simp only [Option.elim, Finset.mem_singleton, Option.some.injEq]
    exact ⟨fun h => h.symm, fun h => h.symm⟩

theorem mkRule_eq_some (counts : Itemset → Nat) (mc : ℚ) (total : Nat)
    (itemset : Itemset) (a : Item) (r : Rule)
    (h : mkRule counts mc total itemset a = some r) :
    r.lhs = itemset \ {a} ∧ r.rhs = {a} ∧
    ¬ (strContains "_".data a.data ∧ strContains "Violation_".data a.data) ∧
    itemset \ ({a} : Itemset) ≠ ∅ ∧
    ¬ (a ∈ fine_levels ∧
        ∃ l ∈ itemset \ ({a} : Itemset), strStarts (a ++ "_Violation_").data l.data) ∧
    counts (itemset \ ({a} : Itemset)) ≠ 0 ∧
    r.support = (counts itemset : ℚ) / (total : ℚ) ∧
    r.confidence = (counts itemset : ℚ) / (counts (itemset \ ({a} : Itemset)) : ℚ) ∧
    mc ≤ r.confidence := by
  simp only [mkRule] at h
  by_cases c1 : (strContains "_".data a.data && strContains "Violation_".data a.data) = true
  · rw [if_pos c1] at h; cases h
  rw [if_neg c1] at h
  by_cases c2 : itemset \ ({a} : Itemset) = ∅
  · rw [if_pos c2] at h; cases h
  rw [if_neg c2] at h
  by_cases c3 : a ∈ fine_levels ∧
      ∃ l ∈ itemset \ ({a} : Itemset), strStarts (a ++ "_Violation_").data l.data
  · rw [if_pos c3] at h; cases h
  rw [if_neg c3] at h
  by_cases c4 : counts (itemset \ ({a} : Itemset)) = 0
  · rw [if_pos c4] at h; cases h
  rw [if_neg c4] at h
  by_cases c5 : mc ≤ (counts itemset : ℚ) / (counts (itemset \ ({a} : Itemset)) : ℚ)
  · rw [if_pos c5] at h
    injection h with h
    subst h
    exact ⟨rfl, rfl, by simpa [Bool.and_eq_true] using c1, c2, c3, c4, rfl, rfl, c5⟩
  · rw [if_neg c5] at h; cases h

theorem mkRule_eq_some_of (counts : Itemset → Nat) (mc : ℚ) (total : Nat)
    (itemset : Itemset) (a : Item)
    (hkind : ¬ (strContains "_".data a.data ∧ strContains "Violation_".data a.data))
    (hlhs : itemset \ ({a} : Itemset) ≠ ∅)
    (htriv : ¬ (a ∈ fine_levels ∧
        ∃ l ∈ itemset \ ({a} : Itemset), strStarts (a ++ "_Violation_").data l.data))
    (hsupp : counts (itemset \ ({a} : Itemset)) ≠ 0)
    (hconf : mc ≤ (counts itemset : ℚ) / (counts (itemset \ ({a} : Itemset)) : ℚ)) :
    mkRule counts mc total itemset a =
      some { lhs := itemset \ {a}, rhs := {a},
             support := (counts itemset : ℚ) / (total : ℚ),
             confidence := (counts itemset : ℚ) / (counts (itemset \ ({a} : Itemset)) : ℚ) } := by
  have c1 : ¬ (strContains "_".data a.data && strContains "Violation_".data a.data) = true := by
    simpa [Bool.and_eq_true] using hkind
  simp only [mkRule]
  rw [if_neg c1, if_neg hlhs, if_neg htriv, if_neg hsupp, if_pos hconf]

theorem mem_generate_rules (M : Finset Itemset) (counts : Itemset → Nat) (mc : ℚ)
    (total : Nat) (r : Rule) :
    r ∈ generate_rules M counts mc total ↔
      ∃ itemset ∈ M, ¬ itemset.card < 2 ∧
        ∃ a ∈ itemset, mkRule counts mc total itemset a = some r := by
  unfold generate_rules
  rw [Finset.mem_biUnion]
  constructor
  · rintro ⟨itemset, hM, hr⟩
    by_cases hc : itemset.card < 2
    · rw [if_pos hc] at hr
      exact absurd hr (Finset.not_mem_empty r)
    rw [if_neg hc, Finset.mem_biUnion] at hr
    obtain ⟨a, ha, hr⟩ := hr
    exact ⟨itemset, hM, hc, a, ha, (mem_option_elim_singleton _ _).mp hr⟩
  · rintro ⟨itemset, hM, hc, a, ha, hmk⟩
    refine ⟨itemset, hM, ?_⟩
    rw [if_neg hc, Finset.mem_biUnion]
    exact ⟨a, ha, (mem_option_elim_singleton _ _).mpr hmk⟩

/-! ### Claim theorems -/

/-- C1: for every transaction list and min_sup, every non-empty subset of any
itemset in the frequent-itemset collection returned by `apriori` is itself in
that collection (downward closure of the mined result). -/
theorem apriori_downward_closed (transactions : List Itemset) (min_sup : ℚ) :
    ∀ F ∈ (apriori transactions min_sup).1.keys, ∀ S, S ⊆ F → S.Nonempty →
      S ∈ (apriori transactions min_sup).1.keys := by
  have hbase := initial_frequent_inv transactions min_sup
  have hdc : DownwardClosed (initial_frequent transactions min_sup).keys := by
    intro F hF S hS hSne
    have hFcard := (hbase F hF).1
    have h1 : 1 ≤ S.card := Finset.card_pos.mpr hSne
    have heq : S = F := Finset.eq_of_subset_of_card_le hS (by omega)
    rwa [heq]
  exact aprioriLoop_downward_closed transactions min_sup
    ((vocab transactions).card + 1) 2
    (initial_frequent transactions min_sup) (initial_frequent transactions min_sup)
    (initial_support_counts transactions) le_rfl
    (fun s hs => by have := (hbase s hs).1; omega)
    (fun s hs => hs) hdc

set_option allowUnsafeReducibility true in
attribute [local semireducible] Rat.mul Rat.add Rat.sub Rat.inv in
set_option maxHeartbeats 1000000 in
/-- Concrete evaluation of the miner: on the single transaction `{"a","b"}`
with `min_sup = 0`, the mined frequent itemsets are `{"a"}`, `{"b"}` and
`{"a","b"}`. -/
theorem apriori_pair_run_keys :
    (apriori [({"a", "b"} : Itemset)] 0).1.keys = {{"a"}, {"b"}, {"a", "b"}} := by
  decide

set_option maxHeartbeats 1000000 in
/-- C1 witness: on the single transaction `{"a","b"}` with `min_sup = 0`, the
pair `{"a","b"}` is mined frequent, and the theorem yields its non-empty
subset `{"a"}` as frequent. -/
theorem apriori_downward_closed_witness :
    ({"a"} : Itemset) ∈ (apriori [({"a", "b"} : Itemset)] 0).1.keys := by
  have h := apriori_downward_closed [({"a", "b"} : Itemset)] 0
  rw [apriori_pair_run_keys] at h ⊢
  exact h {"a", "b"} (by decide) {"a"} (by decide) (by decide)

/-- C10: the level-wise search terminates — with the fuel `apriori` supplies,
`(vocab transactions).card + 1`, the loop has already reached its exit
condition (a level with no frequent itemsets or no candidates), so granting
the loop any additional fuel leaves the result unchanged: itemset size grows
with the level and is bounded by the number of distinct items. -/
theorem apriori_loop_terminates (transactions : List Itemset) (min_sup : ℚ) (m : Nat) :
    aprioriLoop transactions min_sup ((vocab transactions).card + 1 + m) 2
        (initial_frequent transactions min_sup) (initial_frequent transactions min_sup)
        (initial_support_counts transactions)
      = aprioriLoop transactions min_sup ((vocab transactions).card + 1) 2
        (initial_frequent transactions min_sup) (initial_frequent transactions min_sup)
        (initial_support_counts transactions) := by
  apply aprioriLoop_fuel_stable
  · intro s hs
    have h := initial_frequent_inv transactions min_sup s hs
    exact ⟨by omega, h.2⟩
  · omega

/-- C2: for every mapping and every `k`, `generate_candidates` returns exactly
the itemsets that are a union of two distinct keys of the input mapping, have
size exactly `k`, and all of whose size-(k−1) subsets are keys of the input
mapping; in particular it never emits a size-k candidate having a size-(k−1)
subset that is not a key (not frequent). -/
theorem generate_candidates_exact (frequent : CountDict) (k : Nat) (c : Itemset) :
    c ∈ generate_candidates frequent k ↔
      (∃ a ∈ frequent.keys, ∃ b ∈ frequent.keys, a ≠ b ∧ a ∪ b = c) ∧ c.card = k ∧
      ∀ s ⊆ c, s.card = k - 1 → s ∈ frequent.keys := by
  rw [mem_generate_candidates]
  tauto

/-- C3: the frequency filter keeps exactly those itemsets of the support-count
mapping whose count satisfies the non-strict comparison
`count ≥ min_sup × total_transactions`, with the exact (unrounded) rational
threshold, and it leaves the counts unchanged. -/
theorem filter_frequent_itemsets_exact (d : CountDict) (min_sup : ℚ) (total : Nat) :
    (∀ c, c ∈ (filter_frequent_itemsets d min_sup total).keys ↔
        c ∈ d.keys ∧ min_sup * (total : ℚ) ≤ (d.count c : ℚ)) ∧
    ∀ c, (filter_frequent_itemsets d min_sup total).count c = d.count c :=
  ⟨fun c => mem_filter_frequent d min_sup total c, fun _ => rfl⟩

/-- C5: for every itemset list processed in decreasing size order (as the
source produces with `sorted(keys, key=len, reverse=True)`), the output of
`find_maximal_frequent_itemsets` contains no itemset that is a proper subset
of another itemset of the output, and every itemset of the input collection
is a subset of at least one itemset of the output. -/
theorem find_maximal_sound_complete (l : List Itemset)
    (hsorted : l.Pairwise (fun a b => b.card ≤ a.card)) :
    (∀ a ∈ find_maximal_frequent_itemsets l,
        ∀ b ∈ find_maximal_frequent_itemsets l, ¬ a ⊂ b) ∧
    (∀ s ∈ l, ∃ m ∈ find_maximal_frequent_itemsets l, s ⊆ m) :=
  ⟨foldl_maximal_sound l hsorted ∅ (fun b hb => absurd hb (Finset.not_mem_empty b))
      (fun a ha => absurd ha (Finset.not_mem_empty a)),
   fun s hs => foldl_maximal_complete l ∅ s hs⟩

/-- C5 witness: on the size-sorted list `[{"a","b"}, {"a"}, {"c"}]` the
theorem applies; its maximal collection is `{{"a","b"}, {"c"}}`, an antichain
covering every input itemset. -/
theorem find_maximal_sound_complete_witness :
    (∀ a ∈ find_maximal_frequent_itemsets [({"a", "b"} : Itemset), {"a"}, {"c"}],
        ∀ b ∈ find_maximal_frequent_itemsets [({"a", "b"} : Itemset), {"a"}, {"c"}],
          ¬ a ⊂ b) ∧
    (∀ s ∈ [({"a", "b"} : Itemset), {"a"}, {"c"}],
        ∃ m ∈ find_maximal_frequent_itemsets [({"a", "b"} : Itemset), {"a"}, {"c"}],
          s ⊆ m) :=
  find_maximal_sound_complete [{"a", "b"}, {"a"}, {"c"}] (by decide)

/-- C4 counterexample: with transaction list `[{"a"}]` and candidate set
`{{"b"}}`, the candidate `{"b"}` is contained in no transaction and is absent
from the keys of the mapping returned by `count_support`, contradicting the
claim that every candidate of the input set appears as a key. -/
theorem count_support_missing_zero_count_key :
    ({"b"} : Itemset) ∉ (count_support [({"a"} : Itemset)] {({"b"} : Itemset)}).keys := by
  decide

/-- C4 (amended): the mapping returned by `count_support` has a key exactly
for each candidate of the input set contained in at least one transaction;
for every candidate, looking it up (defaultdict semantics, default 0) yields
the number of transactions that are supersets of it — in particular 0 for a
candidate contained in no transaction, but such a candidate is absent from
the keys rather than present with value 0. -/
theorem count_support_exact (transactions : List Itemset) (itemsets : Finset Itemset) :
    (∀ c, c ∈ (count_support transactions itemsets).keys ↔
        c ∈ itemsets ∧ ∃ t ∈ transactions, c ⊆ t) ∧
    ∀ c, (count_support transactions itemsets).count c
        = if c ∈ itemsets then supportCount transactions c else 0 :=
  ⟨fun c => mem_count_support_keys transactions itemsets c,
   fun c => count_support_count_eq transactions itemsets c⟩

/-- C6: every rule emitted by `generate_rules` from a subset-antitone support
mapping (as actual support counts are) has a singleton RHS disjoint from a
non-empty LHS with LHS ∪ RHS a maximal frequent itemset of size ≥ 2, and its
confidence — support(LHS∪RHS)/support(LHS) — lies in `[min_conf, 1]`. -/
theorem generate_rules_shape_confidence (M : Finset Itemset) (counts : Itemset → Nat)
    (mc : ℚ) (total : Nat)
    (hmono : ∀ a b : Itemset, a ⊆ b → counts b ≤ counts a) :
    ∀ r ∈ generate_rules M counts mc total,
      ∃ itemset ∈ M, 2 ≤ itemset.card ∧ r.lhs ∪ r.rhs = itemset ∧
        (∃ x, r.rhs = {x}) ∧ r.lhs.Nonempty ∧ Disjoint r.lhs r.rhs ∧
        r.confidence = (counts (r.lhs ∪ r.rhs) : ℚ) / (counts r.lhs : ℚ) ∧
        mc ≤ r.confidence ∧ r.confidence ≤ 1 := by
  intro r hr
  obtain ⟨itemset, hM, hcard, a, ha, hmk⟩ := (mem_generate_rules M counts mc total r).mp hr
  obtain ⟨hlhs, hrhs, _, hne, _, hsupp, _, hconf, hmc⟩ :=
    mkRule_eq_some counts mc total itemset a r hmk
  have hasub : ({a} : Itemset) ⊆ itemset := Finset.singleton_subset_iff.mpr ha
  have hunion : r.lhs ∪ r.rhs = itemset := by
    rw [hlhs, hrhs]
    exact Finset.sdiff_union_of_subset hasub
  rw [← hlhs] at hne hsupp hconf
  have hlsub : r.lhs ⊆ itemset := hlhs ▸ Finset.sdiff_subset
  have hle : counts itemset ≤ counts r.lhs := hmono r.lhs itemset hlsub
  have hpos : 0 < (counts r.lhs : ℚ) := by
    exact_mod_cast Nat.pos_of_ne_zero hsupp
  refine ⟨itemset, hM, by omega, hunion, ⟨a, hrhs⟩,
    Finset.nonempty_iff_ne_empty.mpr hne, ?_, ?_, hmc, ?_⟩
  · rw [hlhs, hrhs]
    exact Finset.sdiff_disjoint
  · rw [hunion]
    exact hconf
  · rw [hconf]
    exact div_le_one_of_le₀ (Nat.cast_le.mpr hle) (le_of_lt hpos)

/-- C6 witness: on the maximal collection `{{"x","y"}}` with the true support
counts of the single transaction `{"x","y"}`, `min_conf = 0` and one
transaction in total, a rule is emitted and the theorem certifies its shape
and that its confidence lies in `[0, 1]`. -/
theorem generate_rules_shape_confidence_witness :
    ∃ r ∈ generate_rules {({"x", "y"} : Itemset)}
        (fun c => supportCount [({"x", "y"} : Itemset)] c) 0 1,
      ∃ itemset ∈ ({({"x", "y"} : Itemset)} : Finset Itemset),
        2 ≤ itemset.card ∧ r.lhs ∪ r.rhs = itemset ∧
        (∃ x, r.rhs = {x}) ∧ r.lhs.Nonempty ∧ Disjoint r.lhs r.rhs ∧
        r.confidence = ((fun c => supportCount [({"x", "y"} : Itemset)] c) (r.lhs ∪ r.rhs) : ℚ)
            / ((fun c => supportCount [({"x", "y"} : Itemset)] c) r.lhs : ℚ) ∧
        (0 : ℚ) ≤ r.confidence ∧ r.confidence ≤ 1 := by
  have hmk := mkRule_eq_some_of
    (fun c => supportCount [({"x", "y"} : Itemset)] c) 0 1
    {"x", "y"} "y" (by decide) (by decide) (by decide) (by decide)
    (div_nonneg (Nat.cast_nonneg _) (Nat.cast_nonneg _))
  have hmem := (mem_generate_rules {({"x", "y"} : Itemset)}
      (fun c => supportCount [({"x", "y"} : Itemset)] c) 0 1 _).mpr
    ⟨{"x", "y"}, by decide, by decide, "y", by decide, hmk⟩
  exact ⟨_, hmem, generate_rules_shape_confidence {({"x", "y"} : Itemset)}
    (fun c => supportCount [({"x", "y"} : Itemset)] c) 0 1
    (fun _ _ h => supportCount_anti _ h) _ hmem⟩

/-- C7 counterexample: the hierarchical item
`"Low Fine_Violation_21_No Parking"` (a fine tier joined with a violation
identity, not a composite violation-identity item — it does not begin with
`"Violation_"`) is skipped as RHS by the kind check even though every other
filter passes: the LHS `{"Manhattan"}` is non-empty with non-zero support,
the RHS is no fine-tier value, and the confidence threshold 0 is met. -/
theorem generate_rules_hierarchical_rhs_skipped :
    mkRule (fun c => supportCount
        [({"Low Fine_Violation_21_No Parking", "Manhattan"} : Itemset)] c) 0 1
      {"Low Fine_Violation_21_No Parking", "Manhattan"}
      "Low Fine_Violation_21_No Parking" = none ∧
    strStarts "Violation_".data "Low Fine_Violation_21_No Parking".data = false ∧
    ({"Low Fine_Violation_21_No Parking", "Manhattan"} : Itemset)
        \ {"Low Fine_Violation_21_No Parking"} ≠ ∅ ∧
    "Low Fine_Violation_21_No Parking" ∉ fine_levels ∧
    (fun c => supportCount
        [({"Low Fine_Violation_21_No Parking", "Manhattan"} : Itemset)] c)
      (({"Low Fine_Violation_21_No Parking", "Manhattan"} : Itemset)
        \ {"Low Fine_Violation_21_No Parking"}) ≠ 0 ∧
    (0 : ℚ) ≤ ((fun c => supportCount
        [({"Low Fine_Violation_21_No Parking", "Manhattan"} : Itemset)] c)
          ({"Low Fine_Violation_21_No Parking", "Manhattan"} : Itemset) : ℚ)
        / ((fun c => supportCount
            [({"Low Fine_Violation_21_No Parking", "Manhattan"} : Itemset)] c)
          (({"Low Fine_Violation_21_No Parking", "Manhattan"} : Itemset)
            \ {"Low Fine_Violation_21_No Parking"}) : ℚ) :=
  ⟨by decide, by decide, by decide, by decide, by decide,
    div_nonneg (Nat.cast_nonneg _) (Nat.cast_nonneg _)⟩

/-- C7 (amended): during rule generation an item is skipped as RHS on account
of its kind exactly when it contains both an underscore and the substring
`"Violation_"` — this covers the composite violation-identity items and also
the hierarchical (fine-tier + violation-identity) items; any other item
(in particular a plain categorical value) is an eligible RHS subject only to
the remaining filters (non-empty LHS, triviality, non-zero LHS support,
confidence threshold). -/
theorem generate_rules_rhs_kind_exact (M : Finset Itemset) (counts : Itemset → Nat)
    (mc : ℚ) (total : Nat) :
    (∀ r ∈ generate_rules M counts mc total, ∀ x ∈ r.rhs,
        ¬ (strContains "_".data x.data ∧ strContains "Violation_".data x.data)) ∧
    (∀ itemset ∈ M, ∀ a ∈ itemset, 2 ≤ itemset.card →
        ¬ (strContains "_".data a.data ∧ strContains "Violation_".data a.data) →
        itemset \ ({a} : Itemset) ≠ ∅ →
        ¬ (a ∈ fine_levels ∧
            ∃ l ∈ itemset \ ({a} : Itemset), strStarts (a ++ "_Violation_").data l.data) →
        counts (itemset \ ({a} : Itemset)) ≠ 0 →
        mc ≤ (counts itemset : ℚ) / (counts (itemset \ ({a} : Itemset)) : ℚ) →
        ∃ r ∈ generate_rules M counts mc total, r.rhs = {a} ∧ r.lhs = itemset \ {a}) := by
  constructor
  · intro r hr x hx
    obtain ⟨itemset, hM, _, a, _, hmk⟩ := (mem_generate_rules M counts mc total r).mp hr
    obtain ⟨_, hrhs, hkind, _⟩ := mkRule_eq_some counts mc total itemset a r hmk
    rw [hrhs, Finset.mem_singleton] at hx
    rwa [hx]
  · intro itemset hM a ha hcard hkind hlhs htriv hsupp hconf
    refine ⟨_, (mem_generate_rules M counts mc total _).mpr
      ⟨itemset, hM, by omega, a, ha,
        mkRule_eq_some_of counts mc total itemset a hkind hlhs htriv hsupp hconf⟩,
      rfl, rfl⟩

/-- C7 amended-claim witness: on the maximal itemset
`{"Low Fine", "Manhattan"}` with the true support counts of one transaction,
the plain item `"Manhattan"` passes the kind check and all remaining
filters, so a rule with RHS `{"Manhattan"}` is emitted. -/
theorem generate_rules_rhs_kind_exact_witness :
    ∃ r ∈ generate_rules {({"Low Fine", "Manhattan"} : Itemset)}
        (fun c => supportCount [({"Low Fine", "Manhattan"} : Itemset)] c) 0 1,
      r.rhs = {"Manhattan"} ∧
      r.lhs = ({"Low Fine", "Manhattan"} : Itemset) \ {"Manhattan"} :=
  (generate_rules_rhs_kind_exact {({"Low Fine", "Manhattan"} : Itemset)}
      (fun c => supportCount [({"Low Fine", "Manhattan"} : Itemset)] c) 0 1).2
    {"Low Fine", "Manhattan"} (by decide) "Manhattan" (by decide) (by decide)
    (by decide) (by decide) (by decide) (by decide)
    (div_nonneg (Nat.cast_nonneg _) (Nat.cast_nonneg _))

/-- C8: `generate_rules` never emits a rule whose RHS item is a fine-tier
value while the LHS contains an item starting with that fine tier joined to
`"_Violation_"` (the matching hierarchical item): every such candidate rule
is skipped by the triviality filter. -/
theorem generate_rules_no_trivial (M : Finset Itemset) (counts : Itemset → Nat)
    (mc : ℚ) (total : Nat) :
    ∀ r ∈ generate_rules M counts mc total, ∀ x ∈ r.rhs,
      ¬ (x ∈ fine_levels ∧ ∃ l ∈ r.lhs, strStarts (x ++ "_Violation_").data l.data) := by
  intro r hr x hx
  obtain ⟨itemset, hM, _, a, _, hmk⟩ := (mem_generate_rules M counts mc total r).mp hr
  obtain ⟨hlhs, hrhs, _, _, htriv, _⟩ := mkRule_eq_some counts mc total itemset a r hmk
  rw [hrhs, Finset.mem_singleton] at hx
  subst hx
  rw [hlhs]
  exact htriv

/-- C8 witness: with maximal itemset `{"Low Fine", "Manhattan"}` and the true
support counts of one transaction, the rule `{"Manhattan"} ⇒ {"Low Fine"}`
is emitted — its RHS is a fine-tier value — and the theorem certifies its
LHS contains no matching hierarchical item. -/
theorem generate_rules_no_trivial_witness :
    ∃ r ∈ generate_rules {({"Low Fine", "Manhattan"} : Itemset)}
        (fun c => supportCount [({"Low Fine", "Manhattan"} : Itemset)] c) 0 1,
      (∃ x ∈ r.rhs, x ∈ fine_levels) ∧
      ∀ x ∈ r.rhs,
        ¬ (x ∈ fine_levels ∧ ∃ l ∈ r.lhs, strStarts (x ++ "_Violation_").data l.data) := by
  have hmk := mkRule_eq_some_of
    (fun c => supportCount [({"Low Fine", "Manhattan"} : Itemset)] c) 0 1
    {"Low Fine", "Manhattan"} "Low Fine" (by decide) (by decide) (by decide) (by decide)
    (div_nonneg (Nat.cast_nonneg _) (Nat.cast_nonneg _))
  have hmem := (mem_generate_rules {({"Low Fine", "Manhattan"} : Itemset)}
      (fun c => supportCount [({"Low Fine", "Manhattan"} : Itemset)] c) 0 1 _).mpr
    ⟨{"Low Fine", "Manhattan"}, by decide, by decide, "Low Fine", by decide, hmk⟩
  exact ⟨_, hmem, ⟨"Low Fine", by decide, by decide⟩,
    fun x hx => generate_rules_no_trivial {({"Low Fine", "Manhattan"} : Itemset)}
      (fun c => supportCount [({"Low Fine", "Manhattan"} : Itemset)] c) 0 1 _ hmem x hx⟩

/-- C9: the program reports the configuration diagnostic and stops with no
report (the error branch) exactly when a threshold is non-numeric (`none`)
or lies outside `[0, 1]`; when both thresholds are numeric and lie inside
`[0, 1]` the run proceeds and produces report material (the ok branch). -/
theorem main_config_validation (transactions : List Itemset)
    (min_sup min_conf : Option ℚ) (sortedKeys : List Itemset) :
    (main_model transactions min_sup min_conf sortedKeys
        = Except.error "min_sup and min_conf must be numbers between 0 and 1" ↔
      ¬ ∃ s c, min_sup = some s ∧ min_conf = some c ∧
        0 ≤ s ∧ s ≤ 1 ∧ 0 ≤ c ∧ c ≤ 1) ∧
    ((∃ out, main_model transactions min_sup min_conf sortedKeys = Except.ok out) ↔
      ∃ s c, min_sup = some s ∧ min_conf = some c ∧
        0 ≤ s ∧ s ≤ 1 ∧ 0 ≤ c ∧ c ≤ 1) := by
  unfold main_model validate_config
  cases min_sup with
  | none => simp
  | some s =>
    cases min_conf with
    | none => simp
    | some c =>
      by_cases h : 0 ≤ s ∧ s ≤ 1 ∧ 0 ≤ c ∧ c ≤ 1
      · dsimp only
        rw [if_pos h]
        refine ⟨⟨fun he => Except.noConfusion he, fun hn =>
            absurd ⟨s, c, rfl, rfl, h.1, h.2.1, h.2.2.1, h.2.2.2⟩ hn⟩,
          fun _ => ⟨s, c, rfl, rfl, h.1, h.2.1, h.2.2.1, h.2.2.2⟩,
          fun _ => ⟨_, rfl⟩⟩
      · dsimp only
        rw [if_neg h]
        refine ⟨⟨fun _ => ?_, fun _ => rfl⟩, ⟨fun hex => ?_, fun hex => ?_⟩⟩
        · rintro ⟨s', c', hs', hc', h1, h2, h3, h4⟩
          injection hs' with e1
          injection hc' with e2
          subst e1
          subst e2
          exact h ⟨h1, h2, h3, h4⟩
        · obtain ⟨out, hout⟩ := hex
          exact Except.noConfusion hout
        · obtain ⟨s', c', hs', hc', h1, h2, h3, h4⟩ := hex
          injection hs' with e1
          injection hc' with e2
          subst e1
          subst e2
          exact absurd ⟨h1, h2, h3, h4⟩ h

end AssocRules
